import Mathlib

/-!
Shallow embedding of the core search-and-selection algorithm of the
repository (class `Linfit` in `optimizer.py`).  Real arithmetic is
modelled exactly over `ℚ`; Python's `int(...)` truncation toward zero,
`%` (sign of the divisor) and `range(...)` are modelled explicitly.
A failing `solve` call (in Python, an uncaught exception such as the
`ValueError` that `max([])` raises) is modelled as `none`.
-/

namespace Linfit

/-- Python truncation toward zero, the conversion `int(q)` applied to a real. -/
def truncZ (q : ℚ) : ℤ := if 0 ≤ q then ⌊q⌋ else ⌈q⌉

/-- Python modulo `a % b` on reals: the result has the sign of the divisor
(only used with divisor `1` in the source, inside `_max_y_int`). -/
def pymod (a b : ℚ) : ℚ := a - b * ⌊a / b⌋

/-- Linfit._reduceResidualsInVarSwitching: `if a < b: a, b = b, a`. -/
def reduceResidualsInVarSwitching (a b : ℚ) : ℚ × ℚ :=
  if a < b then (b, a) else (a, b)

/-- Linfit._getValidXRange: `range(int(L / a) + 1)`; a Python `range(n)` with
`n ≤ 0` is empty, which `Int.toNat` reproduces. -/
def getValidXRange (L a : ℚ) : List ℕ :=
  List.range (truncZ (L / a) + 1).toNat

/-- Linfit._y: `(L - a * x) / b`. -/
def yVal (L a b x : ℚ) : ℚ := (L - a * x) / b

/-- Linfit._max_y_int: `int(y - y % 1)`. -/
def max_y_int (yv : ℚ) : ℤ := truncZ (yv - pymod yv 1)

/-- Linfit._errorPlane: `L - a * x - b * y`. -/
def errorPlane (L a b x yv : ℚ) : ℚ := L - a * x - b * yv

/-- Linfit._getError: residual at integer `x` with `y = _max_y_int(_y(x))`. -/
def getError (L a b : ℚ) (x : ℕ) : ℚ :=
  errorPlane L a b x (max_y_int (yVal L a b x))

/-- Loop of Linfit._minimalErrorGenerator: the state is the current
`min_error`, with `none` standing for the initial `float('inf')` (any real
error compares strictly below it); the returned list is the sequence of
yielded `(min_error, min_x)` pairs. -/
def minimalErrorGeneratorAux (L a b : ℚ) : Option ℚ → List ℕ → List (ℚ × ℕ)
  | _, [] => []
  | none, x :: rest =>
      (getError L a b x, x) ::
        minimalErrorGeneratorAux L a b (some (getError L a b x)) rest
  | some m, x :: rest =>
      if getError L a b x < m then
        (getError L a b x, x) ::
          minimalErrorGeneratorAux L a b (some (getError L a b x)) rest
      else
        minimalErrorGeneratorAux L a b (some m) rest

/-- Linfit._minimalErrorGenerator: yields `(min_error, min_x)` on each strict
improvement, starting from `min_error = float('inf')`. -/
def minimalErrorGenerator (L a b : ℚ) (xs : List ℕ) : List (ℚ × ℕ) :=
  minimalErrorGeneratorAux L a b none xs

/-- Loop body of Linfit._undercutMinError: state is `(min_error, best_x_values)`
with `none` for the initial `float('inf')`. -/
def undercutStep (s : Option ℚ × List ℕ) (p : ℚ × ℕ) : Option ℚ × List ℕ :=
  match s with
  | (none, _) => (some p.1, [p.2])
  | (some m, bs) =>
      if p.1 < m then (some p.1, [p.2])
      else if p.1 = m then (some m, bs ++ [p.2])
      else (some m, bs)

/-- Python `max(l)` on a list of ints; `max([])` raises `ValueError`,
modelled as `none`. -/
def maxOfList : List ℕ → Option ℕ
  | [] => none
  | x :: xs => some (xs.foldl Nat.max x)

/-- Linfit._undercutMinError: folds the yielded pairs and returns
`max(best_x_values)`. -/
def undercutMinError (l : List (ℚ × ℕ)) : Option ℕ :=
  maxOfList (l.foldl undercutStep (none, [])).2

/-- Number of residuals reported by Linfit.solve: `len(x_range)`,
the `len_resi` argument of `_printResult`. -/
def len_resi (a b L : ℚ) : ℕ :=
  (getValidXRange L (reduceResidualsInVarSwitching a b).1).length

/-- Linfit construction followed by Linfit.solve: normalize the
coefficients, scan the valid x range, pick `x_sol` through
`_undercutMinError`, recompute `y_sol = _max_y_int(_y(x_sol))`. -/
def solve (a b L : ℚ) : Option (ℕ × ℤ) :=
  match undercutMinError (minimalErrorGenerator L
      (reduceResidualsInVarSwitching a b).1
      (reduceResidualsInVarSwitching a b).2
      (getValidXRange L (reduceResidualsInVarSwitching a b).1)) with
  | none => none
  | some x =>
      some (x, max_y_int (yVal L (reduceResidualsInVarSwitching a b).1
        (reduceResidualsInVarSwitching a b).2 x))

theorem truncZ_intCast (n : ℤ) : truncZ (n : ℚ) = n := by
  unfold truncZ
  split <;> simp

theorem truncZ_of_nonneg {q : ℚ} (h : 0 ≤ q) : truncZ q = ⌊q⌋ := if_pos h

theorem truncZ_of_neg {q : ℚ} (h : q < 0) : truncZ q = ⌈q⌉ := if_neg (not_le.mpr h)

theorem max_y_int_eq_floor (yv : ℚ) : max_y_int yv = ⌊yv⌋ := by
  have h : yv - pymod yv 1 = ((⌊yv⌋ : ℤ) : ℚ) := by
    unfold pymod
    rw [div_one]
    ring
  rw [max_y_int, h, truncZ_intCast]

theorem getError_eq (L a b : ℚ) (x : ℕ) :
    getError L a b x = (L - a * x) - b * ⌊(L - a * x) / b⌋ := by
  unfold getError errorPlane yVal
  rw [max_y_int_eq_floor]

theorem reduce_eq_of_le (a b : ℚ) (h : b ≤ a) :
    reduceResidualsInVarSwitching a b = (a, b) := by
  unfold reduceResidualsInVarSwitching
  rw [if_neg (not_lt.mpr h)]

/-- One step of the running strict minimum `(min_error, min_x)` that the
generator's loop maintains. -/
def runMinStep (L a b : ℚ) (p : ℚ × ℕ) (x : ℕ) : ℚ × ℕ :=
  if getError L a b x < p.1 then (getError L a b x, x) else p

/-- One step of the accumulator fold of the spec's selector description:
keep the incumbent `best` unless the new candidate is a strict improvement. -/
def pick (L a b : ℚ) (best x : ℕ) : ℕ :=
  if getError L a b x < getError L a b best then x else best

/-- Modelled from the spec (§9): the explicit accumulator-based fold over the
candidate sequence, returning the first x that achieves the minimal residual;
used as the reference point of the refinement claim about the
generator/undercut pipeline. -/
def firstMinX (L a b : ℚ) : List ℕ → Option ℕ
  | [] => none
  | x :: xs => some (xs.foldl (pick L a b) x)

theorem undercut_genAux (L a b : ℚ) :
    ∀ (xs : List ℕ) (m : ℚ) (bx : ℕ),
      List.foldl undercutStep (some m, [bx])
          (minimalErrorGeneratorAux L a b (some m) xs)
        = (some (List.foldl (runMinStep L a b) (m, bx) xs).1,
           [(List.foldl (runMinStep L a b) (m, bx) xs).2]) := by
  intro xs
  induction xs with
  | nil => intro m bx; rfl
  | cons x rest ih =>
      intro m bx
      by_cases h : getError L a b x < m
      · rw [minimalErrorGeneratorAux, if_pos h]
        rw [List.foldl_cons, List.foldl_cons]
        have hstep : undercutStep (some m, [bx]) (getError L a b x, x)
            = (some (getError L a b x), [x]) := by
          simp [undercutStep, if_pos h]
        have hrms : runMinStep L a b (m, bx) x = (getError L a b x, x) := by
          simp [runMinStep, if_pos h]
        rw [hstep, hrms]
        exact ih _ _
      · rw [minimalErrorGeneratorAux, if_neg h]
        rw [List.foldl_cons]
        have hrms : runMinStep L a b (m, bx) x = (m, bx) := by
          simp [runMinStep, if_neg h]
        rw [hrms]
        exact ih _ _

theorem undercut_gen_cons (L a b : ℚ) (x : ℕ) (rest : List ℕ) :
    undercutMinError (minimalErrorGenerator L a b (x :: rest))
      = some (List.foldl (runMinStep L a b) (getError L a b x, x) rest).2 := by
  unfold undercutMinError minimalErrorGenerator
  rw [minimalErrorGeneratorAux, List.foldl_cons]
  have hstep : undercutStep (none, []) (getError L a b x, x)
      = (some (getError L a b x), [x]) := rfl
  rw [hstep, undercut_genAux]
  rfl

theorem runMin_eq_pick (L a b : ℚ) :
    ∀ (xs : List ℕ) (bx : ℕ),
      List.foldl (runMinStep L a b) (getError L a b bx, bx) xs
        = (getError L a b (List.foldl (pick L a b) bx xs),
           List.foldl (pick L a b) bx xs) := by
  intro xs
  induction xs with
  | nil => intro bx; rfl
  | cons x rest ih =>
      intro bx
      rw [List.foldl_cons, List.foldl_cons]
      by_cases h : getError L a b x < getError L a b bx
      · have h1 : runMinStep L a b (getError L a b bx, bx) x
            = (getError L a b x, x) := by simp [runMinStep, if_pos h]
        have h2 : pick L a b bx x = x := if_pos h
        rw [h1, h2]
        exact ih x
      · have h1 : runMinStep L a b (getError L a b bx, bx) x
            = (getError L a b bx, bx) := by simp [runMinStep, if_neg h]
        have h2 : pick L a b bx x = bx := if_neg h
        rw [h1, h2]
        exact ih bx

theorem undercut_gen_eq_firstMinX (L a b : ℚ) (xs : List ℕ) :
    undercutMinError (minimalErrorGenerator L a b xs) = firstMinX L a b xs := by
  cases xs with
  | nil => rfl
  | cons x rest =>
      rw [undercut_gen_cons, runMin_eq_pick]
      rfl

theorem pick_le_left (L a b : ℚ) (bx x : ℕ) :
    getError L a b (pick L a b bx x) ≤ getError L a b bx := by
  unfold pick
  split
  · exact le_of_lt (by assumption)
  · exact le_refl _

theorem pick_le_right (L a b : ℚ) (bx x : ℕ) :
    getError L a b (pick L a b bx x) ≤ getError L a b x := by
  unfold pick
  split
  · exact le_refl _
  · exact not_lt.mp (by assumption)

theorem pick_eq_or (L a b : ℚ) (bx x : ℕ) :
    pick L a b bx x = bx ∨ pick L a b bx x = x := by
  unfold pick
  split
  · exact Or.inr rfl
  · exact Or.inl rfl

theorem foldl_pick_mem (L a b : ℚ) :
    ∀ (xs : List ℕ) (bx : ℕ),
      List.foldl (pick L a b) bx xs = bx ∨ List.foldl (pick L a b) bx xs ∈ xs := by
  intro xs
  induction xs with
  | nil => intro bx; exact Or.inl rfl
  | cons x rest ih =>
      intro bx
      rw [List.foldl_cons]
      rcases ih (pick L a b bx x) with h | h
      · rcases pick_eq_or L a b bx x with h2 | h2
        · exact Or.inl (h.trans h2)
        · rw [h, h2]
          exact Or.inr (List.mem_cons_self _ _)
      · exact Or.inr (List.mem_cons_of_mem _ h)

theorem foldl_pick_min (L a b : ℚ) :
    ∀ (xs : List ℕ) (bx : ℕ),
      getError L a b (List.foldl (pick L a b) bx xs) ≤ getError L a b bx ∧
      ∀ x ∈ xs, getError L a b (List.foldl (pick L a b) bx xs) ≤ getError L a b x := by
  intro xs
  induction xs with
  | nil =>
      intro bx
      exact ⟨le_refl _, by intro x hx; exact absurd hx (List.not_mem_nil x)⟩
  | cons x rest ih =>
      intro bx
      rw [List.foldl_cons]
      refine ⟨le_trans (ih (pick L a b bx x)).1 (pick_le_left L a b bx x), ?_⟩
      intro z hz
      rcases List.mem_cons.mp hz with hz | hz
      · subst hz
        exact le_trans (ih (pick L a b bx z)).1 (pick_le_right L a b bx z)
      · exact (ih (pick L a b bx x)).2 z hz

theorem foldl_pick_first (L a b : ℚ) :
    ∀ (xs : List ℕ) (bx : ℕ), (∀ z ∈ xs, bx < z) → List.Pairwise (· < ·) xs →
      ∀ z, (z = bx ∨ z ∈ xs) →
        getError L a b z = getError L a b (List.foldl (pick L a b) bx xs) →
        List.foldl (pick L a b) bx xs ≤ z := by
  intro xs
  induction xs with
  | nil =>
      intro bx _ _ z hz heq
      rcases hz with hz | hz
      · subst hz; exact le_refl _
      · exact absurd hz (List.not_mem_nil z)
  | cons x rest ih =>
      intro bx hlb hpw z hz heq
      have hx : bx < x := hlb x (List.mem_cons_self _ _)
      have hxr : ∀ w ∈ rest, x < w := fun w hw => (List.pairwise_cons.mp hpw).1 w hw
      have hpw' : List.Pairwise (· < ·) rest := (List.pairwise_cons.mp hpw).2
      rw [List.foldl_cons] at heq ⊢
      by_cases h : getError L a b x < getError L a b bx
      · have hpick : pick L a b bx x = x := if_pos h
        rw [hpick] at heq ⊢
        rcases hz with hz | hz
        · subst hz
          have hmin := (foldl_pick_min L a b rest x).1
          exact absurd heq (by rw [heq] at h ⊢; exact absurd (lt_of_le_of_lt hmin h) (lt_irrefl _))
        · rcases List.mem_cons.mp hz with hz | hz
          · exact ih x hxr hpw' z (Or.inl hz) heq
          · exact ih x hxr hpw' z (Or.inr hz) heq
      · have hpick : pick L a b bx x = bx := if_neg h
        have hbx_le : getError L a b bx ≤ getError L a b x := not_lt.mp h
        rw [hpick] at heq ⊢
        have hlb' : ∀ w ∈ rest, bx < w := fun w hw => hlb w (List.mem_cons_of_mem _ hw)
        rcases hz with hz | hz
        · exact ih bx hlb' hpw' z (Or.inl hz) heq
        · rcases List.mem_cons.mp hz with hz | hz
          · subst hz
            have hmin := (foldl_pick_min L a b rest bx).1
            have heqb : getError L a b bx
                = getError L a b (List.foldl (pick L a b) bx rest) := by
              have h1 : getError L a b (List.foldl (pick L a b) bx rest)
                  ≤ getError L a b bx := hmin
              have h2 : getError L a b bx ≤ getError L a b z := hbx_le
              rw [heq] at h2
              exact le_antisymm h2 h1
            have hres := ih bx hlb' hpw' bx (Or.inl rfl) heqb
            exact le_of_lt (lt_of_le_of_lt hres hx)
          · exact ih bx hlb' hpw' z (Or.inr hz) heq

theorem genAux_strict (L a b : ℚ) :
    ∀ (xs : List ℕ) (m : ℚ),
      (∀ p ∈ minimalErrorGeneratorAux L a b (some m) xs, p.1 < m) ∧
      List.Chain' (fun e f => f < e)
        ((minimalErrorGeneratorAux L a b (some m) xs).map Prod.fst) := by
  intro xs
  induction xs with
  | nil =>
      intro m
      constructor
      · intro p hp; exact absurd hp (List.not_mem_nil p)
      · exact List.chain'_nil
  | cons x rest ih =>
      intro m
      by_cases h : getError L a b x < m
      · rw [minimalErrorGeneratorAux, if_pos h]
        constructor
        · intro p hp
          rcases List.mem_cons.mp hp with hp | hp
          · rw [hp]; exact h
          · exact lt_trans ((ih (getError L a b x)).1 p hp) h
        · rw [List.map_cons, List.chain'_cons']
          refine ⟨?_, (ih (getError L a b x)).2⟩
          intro f hf
          have hcons := List.eq_cons_of_mem_head? hf
          have hfmem : f ∈ (minimalErrorGeneratorAux L a b
              (some (getError L a b x)) rest).map Prod.fst := by
            rw [hcons]; exact List.mem_cons_self _ _
          rcases List.mem_map.mp hfmem with ⟨p, hp, hpf⟩
          rw [← hpf]
          exact (ih (getError L a b x)).1 p hp
      · rw [minimalErrorGeneratorAux, if_neg h]
        exact ih m

theorem gen_strict (L a b : ℚ) (xs : List ℕ) :
    List.Chain' (fun e f => f < e)
      ((minimalErrorGenerator L a b xs).map Prod.fst) := by
  cases xs with
  | nil => exact List.chain'_nil
  | cons x rest =>
      unfold minimalErrorGenerator
      rw [minimalErrorGeneratorAux, List.map_cons, List.chain'_cons']
      refine ⟨?_, (genAux_strict L a b rest (getError L a b x)).2⟩
      intro f hf
      have hcons := List.eq_cons_of_mem_head? hf
      have hfmem : f ∈ (minimalErrorGeneratorAux L a b
          (some (getError L a b x)) rest).map Prod.fst := by
        rw [hcons]; exact List.mem_cons_self _ _
      rcases List.mem_map.mp hfmem with ⟨p, hp, hpf⟩
      rw [← hpf]
      exact (genAux_strict L a b rest (getError L a b x)).1 p hp

theorem undercut_gen_range (L a b : ℚ) (n : ℕ) (hn : n ≠ 0) :
    ∃ xsol, undercutMinError (minimalErrorGenerator L a b (List.range n)) = some xsol ∧
      xsol ∈ List.range n ∧
      (∀ x ∈ List.range n, getError L a b xsol ≤ getError L a b x) ∧
      (∀ x ∈ List.range n, getError L a b x = getError L a b xsol → xsol ≤ x) := by
  obtain ⟨m, rfl⟩ := Nat.exists_eq_succ_of_ne_zero hn
  rw [List.range_succ_eq_map]
  have hlb : ∀ z ∈ (List.range m).map Nat.succ, 0 < z := by
    intro z hz
    rcases List.mem_map.mp hz with ⟨w, _, hw⟩
    rw [← hw]
    exact Nat.succ_pos w
  have hpw : List.Pairwise (· < ·) ((List.range m).map Nat.succ) :=
    List.Pairwise.map Nat.succ (fun _ _ h => Nat.succ_lt_succ h) (List.sorted_lt_range m)
  refine ⟨List.foldl (pick L a b) 0 ((List.range m).map Nat.succ), ?_, ?_, ?_, ?_⟩
  · rw [undercut_gen_cons, runMin_eq_pick]
  · rcases foldl_pick_mem L a b ((List.range m).map Nat.succ) 0 with h | h
    · rw [h]; exact List.mem_cons_self _ _
    · exact List.mem_cons_of_mem _ h
  · intro x hx
    rcases List.mem_cons.mp hx with hx | hx
    · rw [hx]
      exact (foldl_pick_min L a b ((List.range m).map Nat.succ) 0).1
    · exact (foldl_pick_min L a b ((List.range m).map Nat.succ) 0).2 x hx
  · intro x hx heq
    rcases List.mem_cons.mp hx with hx | hx
    · exact foldl_pick_first L a b ((List.range m).map Nat.succ) 0 hlb hpw x (Or.inl hx) heq
    · exact foldl_pick_first L a b ((List.range m).map Nat.succ) 0 hlb hpw x (Or.inr hx) heq

/-- C2 (confirmed): for every candidate x in the valid search space of an
equation with positive normalized coefficients a ≥ b and target L ≥ 0, the
residual computed by `_getError` satisfies 0 ≤ residual < b. -/
theorem residual_bound (L a b : ℚ) (x : ℕ) (hb : 0 < b) (hba : b ≤ a)
    (hL : 0 ≤ L) (hx : x ∈ getValidXRange L a) :
    0 ≤ getError L a b x ∧ getError L a b x < b := by
  rw [getError_eq]
  have hb0 : b ≠ 0 := ne_of_gt hb
  have hbt : (L - a * x) / b * b = L - a * x := div_mul_cancel₀ _ hb0
  have hf1 := Int.floor_le ((L - a * x) / b)
  have hf2 := Int.lt_floor_add_one ((L - a * x) / b)
  constructor
  · nlinarith [hf1, hbt, hb]
  · nlinarith [hf2, hbt, hb]

/-- Witness for C2 at L = 5, a = 2, b = 1, x = 1. -/
theorem residual_bound_witness :
    0 ≤ getError 5 2 1 1 ∧ getError 5 2 1 1 < 1 :=
  residual_bound 5 2 1 1 (by norm_num) (by norm_num) (by norm_num)
    (by norm_num [getValidXRange, truncZ, List.mem_range])

/-- C5 (confirmed): for a normalized equation with positive coefficients and
target L ≥ 0, the search space is the ordered list of the integers 0 up to and
including ⌊L/a⌋, and the number of candidates evaluated (the `len(x_range)`
that `solve` reports) equals ⌊L/a⌋ + 1 exactly. -/
theorem searchSpace_complete (L a b : ℚ) (hb : 0 < b) (hba : b ≤ a) (hL : 0 ≤ L) :
    getValidXRange L a = List.range ((⌊L / a⌋).toNat + 1) ∧
    ((getValidXRange L a).length : ℤ) = ⌊L / a⌋ + 1 ∧
    (∀ k : ℕ, k ∈ getValidXRange L a ↔ (k : ℤ) ≤ ⌊L / a⌋) ∧
    (len_resi a b L : ℤ) = ⌊L / a⌋ + 1 := by
  have ha : 0 < a := lt_of_lt_of_le hb hba
  have hq : 0 ≤ L / a := div_nonneg hL (le_of_lt ha)
  have hfl : 0 ≤ ⌊L / a⌋ := Int.floor_nonneg.mpr hq
  have hnat : (⌊L / a⌋ + 1).toNat = (⌊L / a⌋).toNat + 1 := by omega
  have hrange : getValidXRange L a = List.range ((⌊L / a⌋).toNat + 1) := by
    unfold getValidXRange
    rw [truncZ_of_nonneg hq, hnat]
  refine ⟨hrange, ?_, ?_, ?_⟩
  · rw [hrange, List.length_range]
    omega
  · intro k
    rw [hrange, List.mem_range]
    omega
  · unfold len_resi
    rw [reduce_eq_of_le a b hba]
    show ((getValidXRange L a).length : ℤ) = ⌊L / a⌋ + 1
    rw [hrange, List.length_range]
    omega

/-- Witness for C5 at L = 10, a = 5/4, b = 4/5 (the spec's first scenario). -/
theorem searchSpace_complete_witness :
    ((getValidXRange 10 (5/4)).length : ℤ) = ⌊(10 : ℚ) / (5/4)⌋ + 1 :=
  (searchSpace_complete 10 (5/4) (4/5) (by norm_num) (by norm_num) (by norm_num)).2.1

/-- C7 (confirmed): for positive coefficients, normalizing (a, b) and
normalizing (b, a) yield the identical pair (max a b, min a b), whose first
component dominates the second. -/
theorem normalization_comm (a b : ℚ) (ha : 0 < a) (hb : 0 < b) :
    reduceResidualsInVarSwitching a b = reduceResidualsInVarSwitching b a ∧
    reduceResidualsInVarSwitching a b = (max a b, min a b) ∧
    min a b ≤ max a b := by
  unfold reduceResidualsInVarSwitching
  rcases lt_trichotomy a b with h | h | h
  · rw [if_pos h, if_neg (not_lt.mpr (le_of_lt h)), max_eq_right (le_of_lt h),
      min_eq_left (le_of_lt h)]
    exact ⟨rfl, rfl, le_of_lt h⟩
  · subst h
    rw [if_neg (lt_irrefl a), max_self, min_self]
    exact ⟨rfl, rfl, le_refl a⟩
  · rw [if_neg (not_lt.mpr (le_of_lt h)), if_pos h, max_eq_left (le_of_lt h),
      min_eq_right (le_of_lt h)]
    exact ⟨rfl, rfl, le_of_lt h⟩

/-- Witness for C7 at (a, b) = (4/5, 5/4) (the spec's reversed-input scenario). -/
theorem normalization_comm_witness :
    reduceResidualsInVarSwitching (4/5) (5/4) = reduceResidualsInVarSwitching (5/4) (4/5) :=
  (normalization_comm (4/5) (5/4) (by norm_num) (by norm_num)).1

/-- C8 (confirmed): the sequence of best-so-far residuals yielded during a
single scan of `_minimalErrorGenerator` is non-increasing. -/
theorem bestSoFar_monotone (L a b : ℚ) (xs : List ℕ) :
    List.Chain' (fun e f => f ≤ e)
      ((minimalErrorGenerator L a b xs).map Prod.fst) :=
  List.Chain'.imp (fun _ _ h => le_of_lt h) (gen_strict L a b xs)

/-- C9 (confirmed): on a non-empty candidate range the composed
`_minimalErrorGenerator` / `_undercutMinError` pipeline equals the explicit
fold `firstMinX` returning the first x achieving the minimal residual; the
generator's yielded errors are strictly decreasing (so the equal-error branch
of `_undercutMinError` never applies), and the returned x is the smallest x
in the range attaining the globally minimal residual. -/
theorem pipeline_first_min (L a b : ℚ) (h : getValidXRange L a ≠ []) :
    undercutMinError (minimalErrorGenerator L a b (getValidXRange L a))
        = firstMinX L a b (getValidXRange L a) ∧
    List.Chain' (fun e f => f < e)
        ((minimalErrorGenerator L a b (getValidXRange L a)).map Prod.fst) ∧
    ∃ xsol,
      undercutMinError (minimalErrorGenerator L a b (getValidXRange L a)) = some xsol ∧
      xsol ∈ getValidXRange L a ∧
      (∀ x ∈ getValidXRange L a, getError L a b xsol ≤ getError L a b x) ∧
      (∀ x ∈ getValidXRange L a, getError L a b x = getError L a b xsol → xsol ≤ x) := by
  refine ⟨undercut_gen_eq_firstMinX L a b _, gen_strict L a b _, ?_⟩
  have hn : (truncZ (L / a) + 1).toNat ≠ 0 := by
    intro h0
    apply h
    unfold getValidXRange
    rw [h0]
    rfl
  exact undercut_gen_range L a b _ hn

/-- Witness for C9 at L = 2, a = 1, b = 1. -/
theorem pipeline_first_min_witness :
    undercutMinError (minimalErrorGenerator 2 1 1 (getValidXRange 2 1))
      = firstMinX 2 1 1 (getValidXRange 2 1) :=
  (pipeline_first_min 2 1 1 (by norm_num [getValidXRange, truncZ, List.range_eq_nil])).1

/-- C1 (corrected): with positive normalized coefficients a ≥ b and L ≥ 0,
solve returns an x achieving the globally minimal residual, but among
x-values tied at the minimal residual it returns the smallest one, not the
largest (the generator yields only on strict improvement, so later ties are
never recorded). -/
theorem solve_min_residual (a b L : ℚ) (hb : 0 < b) (hba : b ≤ a) (hL : 0 ≤ L) :
    ∃ xsol ysol, solve a b L = some (xsol, ysol) ∧
      xsol ∈ getValidXRange L a ∧
      (∀ x ∈ getValidXRange L a, getError L a b xsol ≤ getError L a b x) ∧
      (∀ x ∈ getValidXRange L a, getError L a b x = getError L a b xsol → xsol ≤ x) := by
  have ha : 0 < a := lt_of_lt_of_le hb hba
  have hq : 0 ≤ L / a := div_nonneg hL (le_of_lt ha)
  have hn : (truncZ (L / a) + 1).toNat ≠ 0 := by
    rw [truncZ_of_nonneg hq]
    have := Int.floor_nonneg.mpr hq
    omega
  obtain ⟨xsol, hx1, hx2, hx3, hx4⟩ := undercut_gen_range L a b _ hn
  have hx1' : undercutMinError (minimalErrorGenerator L a b (getValidXRange L a))
      = some xsol := hx1
  have hx2' : xsol ∈ getValidXRange L a := hx2
  have hx3' : ∀ x ∈ getValidXRange L a, getError L a b xsol ≤ getError L a b x := hx3
  have hx4' : ∀ x ∈ getValidXRange L a,
      getError L a b x = getError L a b xsol → xsol ≤ x := hx4
  refine ⟨xsol, max_y_int (yVal L a b xsol), ?_, hx2', hx3', hx4'⟩
  unfold solve
  rw [reduce_eq_of_le a b hba]
  dsimp only
  rw [hx1']

/-- Witness for C1 at L = 4, a = 2, b = 1. -/
theorem solve_min_residual_witness :
    ∃ xsol ysol, solve 2 1 4 = some (xsol, ysol) ∧
      xsol ∈ getValidXRange 4 2 ∧
      (∀ x ∈ getValidXRange 4 2, getError 4 2 1 xsol ≤ getError 4 2 1 x) ∧
      (∀ x ∈ getValidXRange 4 2, getError 4 2 1 x = getError 4 2 1 xsol → xsol ≤ x) :=
  solve_min_residual 2 1 4 (by norm_num) (by norm_num) (by norm_num)

/-- C1 counterexample: for L = 4, a = 2, b = 1 the residual is 0 at both
x = 0 and x = 2 (the whole search space 0..2 is tied at the minimal residual
0), yet solve returns x = 0 — not the maximal tied x = 2. -/
theorem tie_break_max_cex :
    solve 2 1 4 = some (0, 4) ∧
    (0 : ℕ) ∈ getValidXRange 4 2 ∧ (2 : ℕ) ∈ getValidXRange 4 2 ∧
    getError 4 2 1 0 = 0 ∧ getError 4 2 1 2 = 0 ∧
    (∀ x ∈ getValidXRange 4 2, 0 ≤ getError 4 2 1 x) := by
  refine ⟨?_, ?_, ?_, ?_, ?_, ?_⟩
  · norm_num [solve, reduceResidualsInVarSwitching, getValidXRange, truncZ,
      minimalErrorGenerator, minimalErrorGeneratorAux, undercutMinError,
      undercutStep, maxOfList, getError_eq, max_y_int_eq_floor, yVal]
  · norm_num [getValidXRange, truncZ, List.mem_range]
  · norm_num [getValidXRange, truncZ, List.mem_range]
  · norm_num [getError_eq]
  · norm_num [getError_eq]
  · norm_num [getValidXRange, truncZ, List.mem_range, getError_eq]

/-- C3 (corrected): solve fails — `max` of the empty tied list, modelled as
`none` — exactly for targets at or below -a; here: for every L ≤ -a with
positive normalized coefficients, solve returns no solution (the search
space is empty). -/
theorem emptySearch_of_le_neg (a b L : ℚ) (hb : 0 < b) (hba : b ≤ a) (hL : L ≤ -a) :
    solve a b L = none := by
  have ha : 0 < a := lt_of_lt_of_le hb hba
  have hq : L / a ≤ -1 := by
    rw [div_le_iff ha]
    linarith
  have hqneg : L / a < 0 := lt_of_le_of_lt hq (by norm_num)
  have hceil : ⌈L / a⌉ ≤ -1 := Int.ceil_le.mpr (by exact_mod_cast hq)
  have hn : (truncZ (L / a) + 1).toNat = 0 := by
    rw [truncZ_of_neg hqneg]
    omega
  unfold solve
  rw [reduce_eq_of_le a b hba]
  dsimp only
  unfold getValidXRange
  rw [hn]
  rfl

/-- Witness for C3's amended statement at L = -3, a = 2, b = 1. -/
theorem emptySearch_of_le_neg_witness : solve 2 1 (-3) = none :=
  emptySearch_of_le_neg 2 1 (-3) (by norm_num) (by norm_num) (by norm_num)

/-- C3 counterexample: L = -1/2 is negative, the coefficients a = 2, b = 1
are valid and positive, yet solve does not fail: it returns x = 0 together
with the negative y = -1. -/
theorem emptySearch_cex :
    (-1/2 : ℚ) < 0 ∧ solve 2 1 (-1/2) = some (0, -1) := by
  refine ⟨by norm_num, ?_⟩
  have hc : ⌈(-1/2 : ℚ) / 2⌉ = 0 := by norm_num
  have hr : getValidXRange (-1/2 : ℚ) 2 = [0] := by
    unfold getValidXRange
    rw [truncZ_of_neg (by norm_num), hc]
    rfl
  unfold solve
  rw [reduce_eq_of_le 2 1 (by norm_num)]
  dsimp only
  rw [hr]
  rw [show undercutMinError (minimalErrorGenerator (-1/2 : ℚ) 2 1 [0]) = some 0 from rfl]
  show some (0, max_y_int (yVal (-1/2 : ℚ) 2 1 0)) = some (0, -1)
  rw [max_y_int_eq_floor]
  norm_num [yVal]

/-- C10 (confirmed): with positive normalized coefficients a ≥ b and a target
-a < L < 0, solve does not fail: the search space is the single candidate
x = 0, and solve returns x = 0 together with y = ⌊L/b⌋, a negative integer. -/
theorem small_negative_L (a b L : ℚ) (hb : 0 < b) (hba : b ≤ a)
    (h1 : -a < L) (h2 : L < 0) :
    getValidXRange L a = [0] ∧ solve a b L = some (0, ⌊L / b⌋) ∧ ⌊L / b⌋ < 0 := by
  have ha : 0 < a := lt_of_lt_of_le hb hba
  have hqneg : L / a < 0 := div_neg_of_neg_of_pos h2 ha
  have hqgt : (-1 : ℚ) < L / a := by
    rw [lt_div_iff ha]
    linarith
  have hceil : ⌈L / a⌉ = 0 := by
    have h3 : ⌈L / a⌉ ≤ 0 := Int.ceil_le.mpr (by exact_mod_cast le_of_lt hqneg)
    have h4 : (-1 : ℤ) < ⌈L / a⌉ := Int.lt_ceil.mpr (by exact_mod_cast hqgt)
    omega
  have hrange : getValidXRange L a = [0] := by
    unfold getValidXRange
    rw [truncZ_of_neg hqneg, hceil]
    rfl
  refine ⟨hrange, ?_, ?_⟩
  · unfold solve
    rw [reduce_eq_of_le a b hba]
    dsimp only
    rw [hrange]
    rw [show undercutMinError (minimalErrorGenerator L a b [0]) = some 0 from rfl]
    show some (0, max_y_int (yVal L a b 0)) = some (0, ⌊L / b⌋)
    rw [max_y_int_eq_floor]
    norm_num [yVal]
  · have hLb : L / b < 0 := div_neg_of_neg_of_pos h2 hb
    exact Int.floor_lt.mpr (by exact_mod_cast hLb)

/-- Witness for C10 at a = 3, b = 2, L = -1. -/
theorem small_negative_L_witness :
    getValidXRange (-1) 3 = [0] ∧ solve 3 2 (-1) = some (0, ⌊(-1 : ℚ) / 2⌋) ∧
    ⌊(-1 : ℚ) / 2⌋ < 0 :=
  small_negative_L 3 2 (-1) (by norm_num) (by norm_num) (by norm_num) (by norm_num)

/-- C4 (corrected): construction performs no validation of the coefficients:
for any pair with a non-positive member, normalization still succeeds and
returns the ordered pair (max a b, min a b); no error is raised. -/
theorem construction_no_validation (a b : ℚ) (h : a ≤ 0 ∨ b ≤ 0) :
    reduceResidualsInVarSwitching a b = (max a b, min a b) := by
  unfold reduceResidualsInVarSwitching
  rcases le_or_lt b a with hba | hab
  · rw [if_neg (not_lt.mpr hba), max_eq_left hba, min_eq_right hba]
  · rw [if_pos hab, max_eq_right (le_of_lt hab), min_eq_left (le_of_lt hab)]

/-- Witness for C4's amended statement at (a, b) = (-2, 3). -/
theorem construction_no_validation_witness :
    reduceResidualsInVarSwitching (-2) 3 = (max (-2 : ℚ) 3, min (-2 : ℚ) 3) :=
  construction_no_validation (-2) 3 (Or.inl (by norm_num))

/-- C4 counterexample: constructing with a = -1 ≤ 0 does not fail: it yields
the normalized pair (2, -1), and solve on L = 5 even returns the solution
(0, -5) — no `InvalidCoefficient` failure exists in the code. -/
theorem construction_cex :
    reduceResidualsInVarSwitching (-1) 2 = (2, -1) ∧
    solve (-1) 2 5 = some (0, -5) := by
  constructor
  · norm_num [reduceResidualsInVarSwitching]
  · norm_num [solve, reduceResidualsInVarSwitching, getValidXRange, truncZ,
      minimalErrorGenerator, minimalErrorGeneratorAux, undercutMinError,
      undercutStep, maxOfList, getError_eq, max_y_int_eq_floor, yVal]

/-- C6 (corrected): for L = 5, a = 1, b = 1 every x in 0..5 yields residual 0
(a tie across all 6 candidates), and solve returns x = 0, y = 5 — the
smallest tied x — not x = 5, y = 0. -/
theorem scenario_L5_a1_b1 :
    (∀ x ∈ getValidXRange 5 1, getError 5 1 1 x = 0) ∧
    (getValidXRange 5 1).length = 6 ∧
    solve 1 1 5 = some (0, 5) := by
  refine ⟨?_, ?_, ?_⟩
  · norm_num [getValidXRange, truncZ, List.mem_range, getError_eq]
  · norm_num [getValidXRange, truncZ]
    decide
  · norm_num [solve, reduceResidualsInVarSwitching, getValidXRange, truncZ,
      minimalErrorGenerator, minimalErrorGeneratorAux, undercutMinError,
      undercutStep, maxOfList, getError_eq, max_y_int_eq_floor, yVal]

/-- C6 counterexample: solve on L = 5, a = 1, b = 1 does not return the
claimed (x, y) = (5, 0). -/
theorem scenario_L5_a1_b1_cex : solve 1 1 5 ≠ some (5, 0) := by
  have h : solve 1 1 5 = some (0, 5) := by
    norm_num [solve, reduceResidualsInVarSwitching, getValidXRange, truncZ,
      minimalErrorGenerator, minimalErrorGeneratorAux, undercutMinError,
      undercutStep, maxOfList, getError_eq, max_y_int_eq_floor, yVal]
  rw [h]
  simp

end Linfit
